import Mathlib

/-!
Shallow embedding of the ring data model (`ring/model.go`) and the rule
loader (`ruler/ruler.go`) of the cortex repository, with theorems about
the descriptor operations `addIngester` / `removeIngester`, the hash
router, the rule loader, and `IngesterState.String`.

Modelling conventions:
* Go `map[string]IngesterDesc` is embedded as an association list with
  Go's observable map operations (lookup, overwrite-insert, delete);
  iteration order is never relied upon by the embedded code.
* `time.Time` values are opaque to the ring logic; they are embedded as
  `Int` and `time.Now()` becomes an explicit `now` parameter.
* `uint32` token values are embedded as `Nat`; the ring code only ever
  compares tokens, so no modular arithmetic arises.
-/

namespace Cortex

/-- Go `ring.IngesterState`, declared as `type IngesterState int`. -/
abbrev IngesterState := Int

/-- `Active IngesterState = iota` (0). -/
def Active : IngesterState := 0

/-- `Leaving` (1). -/
def Leaving : IngesterState := 1

/-- Embedding of the Go method `func (s IngesterState) String() string`:
a switch on `Active` and `Leaving` falling through to `""`. -/
def IngesterState.String (s : IngesterState) : String :=
  if s = Active then "Active"
  else if s = Leaving then "Leaving"
  else ""

/-- Go `ring.IngesterDesc`: hostname, heartbeat timestamp, state and
gRPC hostname of a single ingester. -/
structure IngesterDesc where
  hostname : String
  timestamp : Int
  state : IngesterState
  grpcHostname : String
deriving DecidableEq, Repr

/-- Go `ring.TokenDesc`: one token value together with the identity of
the ingester that owns it. -/
structure TokenDesc where
  token : Nat
  ingester : String
deriving DecidableEq, Repr

/-- The comparison used by `TokenDescs.Less`: `ts[i].Token < ts[j].Token`.
`sortTokens` sorts with the corresponding non-strict order. -/
def tokenLE (a b : TokenDesc) : Bool := a.token ≤ b.token

/-- Embedding of `sort.Sort(d.Tokens)` with `TokenDescs.Less`.
Go's `sort.Sort` guarantees a permutation of its input that is
nondecreasing in `Token`; it is documented as NOT stable, so the
relative order of equal-valued tokens is not determined by the source.
The embedding uses `mergeSort`, which realises the same guarantee. -/
def sortTokens (ts : List TokenDesc) : List TokenDesc :=
  ts.mergeSort tokenLE

/-- Association-list embedding of Go's `map[string]IngesterDesc`. -/
abbrev IngesterMap := List (String × IngesterDesc)

/-- Map read `m[k]` (with presence bit folded into `Option`). -/
def mapLookup : IngesterMap → String → Option IngesterDesc
  | [], _ => none
  | p :: m, k => if p.1 = k then some p.2 else mapLookup m k

/-- Map write `m[k] = v`: overwrites the entry at `k` if present,
otherwise adds one. -/
def mapInsert : IngesterMap → String → IngesterDesc → IngesterMap
  | [], k, v => [(k, v)]
  | p :: m, k, v => if p.1 = k then (k, v) :: m else p :: mapInsert m k v

/-- Map delete `delete(m, k)`. -/
def mapErase : IngesterMap → String → IngesterMap
  | [], _ => []
  | p :: m, k => if p.1 = k then mapErase m k else p :: mapErase m k

/-- Go `ring.Desc`: the serialised ring state, an ingester map plus a
token list. -/
structure Desc where
  ingesters : IngesterMap
  tokens : List TokenDesc
deriving DecidableEq, Repr

/-- Go `newDesc()`: empty ingester map, nil token list. -/
def newDesc : Desc := ⟨[], []⟩

/-- Embedding of `func (d *Desc) addIngester(id, hostname, grpcHostname
string, tokens []uint32, state IngesterState)`: overwrite the map entry
for `id` with a fresh heartbeat timestamp (the explicit `now`), append
one `TokenDesc` per given token, then `sort.Sort` the token list. -/
def addIngester (d : Desc) (id hostname grpcHostname : String)
    (tokens : List Nat) (state : IngesterState) (now : Int) : Desc :=
  { ingesters := mapInsert d.ingesters id
      ⟨hostname, now, state, grpcHostname⟩
    tokens := sortTokens (d.tokens ++ tokens.map (fun t => ⟨t, id⟩)) }

/-- Embedding of `func (d *Desc) removeIngester(id string)`: delete the
map entry and keep exactly the tokens whose `Ingester != id`, in order. -/
def removeIngester (d : Desc) (id : String) : Desc :=
  { ingesters := mapErase d.ingesters id
    tokens := d.tokens.filter (fun t => t.ingester != id) }

/-- One call against the descriptor: either an `addIngester` (with its
`time.Now()` made explicit) or a `removeIngester`. -/
inductive RingOp
  | add (id hostname grpcHostname : String) (tokens : List Nat)
      (state : IngesterState) (now : Int)
  | remove (id : String)

/-- Apply one call to a descriptor. -/
def applyOp (d : Desc) : RingOp → Desc
  | .add id h g ts s now => addIngester d id h g ts s now
  | .remove id => removeIngester d id

/-- Run a sequence of calls starting from the empty descriptor. -/
def applyOps (ops : List RingOp) : Desc := ops.foldl applyOp newDesc

/-- The token values currently recorded for `id` in a descriptor. -/
def tokensOf (d : Desc) (id : String) : List Nat :=
  (d.tokens.filter (fun t => t.ingester == id)).map TokenDesc.token

/-- Specification-side ghost state: the token values a single identity
has accumulated, given one call.  An `add` for the identity appends its
tokens (the code keeps earlier registrations' tokens); a `remove`
clears them. -/
def ghostStep (f : String → List Nat) : RingOp → (String → List Nat)
  | .add id _ _ ts _ _ => fun k => if k = id then f k ++ ts else f k
  | .remove id => fun k => if k = id then [] else f k

/-- Specification-side: the tokens assigned to each identity by a call
sequence. -/
def assignedTokens (ops : List RingOp) : String → List Nat :=
  ops.foldl ghostStep (fun _ => [])

/-- The ring invariant, with the ghost assignment `f` as specification
state: the token list is sorted ascending, every token's ingester is a
key of the map, each identity's recorded token values are exactly (up
to order) its ghost-assigned ones, and identities absent from the map
have no ghost-assigned tokens. -/
def RingInv (d : Desc) (f : String → List Nat) : Prop :=
  List.Pairwise (fun a b => a.token ≤ b.token) d.tokens ∧
  (∀ t ∈ d.tokens, (mapLookup d.ingesters t.ingester).isSome = true) ∧
  (∀ id, (tokensOf d id).Perm (f id)) ∧
  (∀ id, mapLookup d.ingesters id = none → f id = [])

/-! ### Hash Router (modelled from the spec) -/

/-- Modelled from the spec: the Hash Router is not among the source
files under consideration (only the descriptor helpers are); section
4.2 defines `route`.  This is the binary search: the index of the
first token with value ≥ the key, wrapping to index 0 when the key
exceeds every token (the ring is circular). -/
def firstTokenGE (ts : List TokenDesc) (key : Nat) : Nat :=
  match ts.findIdx? (fun t => key ≤ t.token) with
  | some i => i
  | none => 0

/-- Modelled from the spec: the forward walk of the Hash Router over
the rotated token list.  Each token is visited at most once; `seen`
holds the identities already collected; the walk stops once `n`
distinct ingesters are collected; entries in `Leaving` state are
skipped, as are tokens of identities already seen. -/
def collectReplicas (look : String → Option IngesterDesc) (n : Nat) :
    List TokenDesc → List String → List String
  | [], _ => []
  | t :: rest, seen =>
    if n ≤ seen.length then []
    else
      match look t.ingester with
      | none => collectReplicas look n rest seen
      | some e =>
        if e.state = Leaving then collectReplicas look n rest seen
        else if t.ingester ∈ seen then collectReplicas look n rest seen
        else e.hostname :: collectReplicas look n rest (t.ingester :: seen)

/-- Modelled from the spec: `route(key, n)` searches the sorted token
list for the first token ≥ `key` (wrapping around), then walks forward
collecting up to `n` distinct non-`Leaving` ingesters' addresses. -/
def route (d : Desc) (key : Nat) (n : Nat) : List String :=
  collectReplicas (mapLookup d.ingesters) n
    (d.tokens.rotate (firstTokenGE d.tokens key)) []

/-! ### Embedding of `ruler.loadRules` (`ruler/ruler.go`) -/

/-- A statement as returned by `promql.ParseStmts`: an alert statement,
a record statement, or the remaining statement kind of the promql AST
(`EvalStmt`), which `loadRules` does not accept.  Expressions and label
sets are opaque to `loadRules` and embedded as strings / pair lists. -/
inductive Stmt
  | alertStmt (name expr : String) (duration : Int)
      (labels annots : List (String × String))
  | recordStmt (name expr : String) (labels : List (String × String))
  | evalStmt (expr : String)
deriving DecidableEq, Repr

/-- A rule as built by `loadRules` (`rules.NewAlertingRule` /
`rules.NewRecordingRule` applied to the statement's fields). -/
inductive Rule
  | alertingRule (name expr : String) (duration : Int)
      (labels annots : List (String × String))
  | recordingRule (name expr : String) (labels : List (String × String))
deriving DecidableEq, Repr

/-- Outcome of `loadRules`: a rule list, the `error parsing %s: %s`
return, or the `panic("ruler.loadRules: unknown statement type")`. -/
inductive LoadResult
  | ok (rules : List Rule)
  | parseFailure (file msg : String)
  | panicked
deriving DecidableEq, Repr

/-- The switch body of `loadRules`: alert and record statements become
rules; the default branch panics (`none`). -/
def ruleOfStmt : Stmt → Option Rule
  | .alertStmt n e dur ls as => some (.alertingRule n e dur ls as)
  | .recordStmt n e ls => some (.recordingRule n e ls)
  | .evalStmt _ => none

/-- Whether a statement is accepted by `loadRules` (alert or record). -/
def isRuleStmt : Stmt → Bool
  | .evalStmt _ => false
  | _ => true

/-- The inner statement loop of `loadRules` over one file's parsed
statements; `none` is the panic. -/
def rulesOfStmts : List Stmt → Option (List Rule)
  | [] => some []
  | st :: sts =>
    match ruleOfStmt st with
    | none => none
    | some r =>
      match rulesOfStmts sts with
      | none => none
      | some rs => some (r :: rs)

/-- Embedding of `func loadRules(files map[string]string)`.  The promql
parser is an external library and is passed in as `parse`; Go's map
iteration visits the files in some order, fixed here as the list
order.  Each file's content is parsed; a parse error aborts with the
`error parsing` return, and a successfully parsed statement that is
neither alert nor record aborts with the panic. -/
def loadRules (parse : String → Except String (List Stmt)) :
    List (String × String) → LoadResult
  | [] => .ok []
  | (fn, content) :: files =>
    match parse content with
    | .error e => .parseFailure fn e
    | .ok stmts =>
      match rulesOfStmts stmts with
      | none => .panicked
      | some rs =>
        match loadRules parse files with
        | .ok rest => .ok (rs ++ rest)
        | other => other

/-! ### Concrete data used by counterexamples and witnesses -/

/-- First registration of "A" with token 5 (C3). -/
def reAddOnce : Desc := addIngester newDesc "A" "host" "grpc" [5] Active 0

/-- Second, identical registration of "A" (C3). -/
def reAddTwice : Desc := addIngester reAddOnce "A" "host" "grpc" [5] Active 0

/-- A concrete ingester entry. -/
def entryA : IngesterDesc := ⟨"addr-a", 0, Active, "grpc-a"⟩

/-- A concrete ingester entry. -/
def entryB : IngesterDesc := ⟨"addr-b", 0, Active, "grpc-b"⟩

/-- A descriptor whose map lists "a" before "b". -/
def descAB : Desc :=
  ⟨[("a", entryA), ("b", entryB)], [⟨10, "a"⟩, ⟨20, "b"⟩]⟩

/-- The same mapping with the entries stored in the other order. -/
def descBA : Desc :=
  ⟨[("b", entryB), ("a", entryA)], [⟨10, "a"⟩, ⟨20, "b"⟩]⟩

/-- A descriptor holding only ingester "B" (C5 witness data). -/
def wdB : Desc := ⟨[("B", entryB)], [⟨7, "B"⟩]⟩

/-- A parser stub whose every file yields one record statement. -/
def goodParse (c : String) : Except String (List Stmt) :=
  Except.ok [Stmt.recordStmt "r" c []]

/-- Two rule files (C9 witness data). -/
def goodFiles : List (String × String) := [("f1", "a"), ("f2", "b")]

/-- A parser stub whose every file yields one statement of the third,
unsupported kind. -/
def badParse (c : String) : Except String (List Stmt) :=
  Except.ok [Stmt.evalStmt c]

/-! ### Helper lemmas about the map embedding and the sort -/

theorem mapLookup_insert_self (m : IngesterMap) (k : String) (v : IngesterDesc) :
    mapLookup (mapInsert m k v) k = some v := by
  induction m with
  | nil => simp [mapInsert, mapLookup]
  | cons p m ih =>
    by_cases hp : p.1 = k
    · simp [mapInsert, mapLookup, hp]
    · simp [mapInsert, mapLookup, hp, ih]

theorem mapLookup_insert_ne (m : IngesterMap) (k : String) (v : IngesterDesc)
    (k' : String) (h : k' ≠ k) :
    mapLookup (mapInsert m k v) k' = mapLookup m k' := by
  have hkk : k ≠ k' := fun hh => h hh.symm
  induction m with
  | nil => simp [mapInsert, mapLookup, hkk]
  | cons p m ih =>
    by_cases hp : p.1 = k
    · have h2 : p.1 ≠ k' := hp ▸ hkk
      simp [mapInsert, mapLookup, hp, h2, hkk]
    · by_cases hq : p.1 = k'
      · simp [mapInsert, mapLookup, hp, hq, h]
      · simp [mapInsert, mapLookup, hp, hq, ih]

theorem mapLookup_erase_self (m : IngesterMap) (k : String) :
    mapLookup (mapErase m k) k = none := by
  induction m with
  | nil => simp [mapErase, mapLookup]
  | cons p m ih =>
    by_cases hp : p.1 = k
    · simp [mapErase, hp, ih]
    · simp [mapErase, mapLookup, hp, ih]

theorem mapLookup_erase_ne (m : IngesterMap) (k k' : String) (h : k' ≠ k) :
    mapLookup (mapErase m k) k' = mapLookup m k' := by
  have hkk : k ≠ k' := fun hh => h hh.symm
  induction m with
  | nil => simp [mapErase]
  | cons p m ih =>
    by_cases hp : p.1 = k
    · have h2 : p.1 ≠ k' := hp ▸ hkk
      simp [mapErase, mapLookup, hp, h2, hkk, ih]
    · by_cases hq : p.1 = k'
      · simp [mapErase, mapLookup, hp, hq, h]
      · simp [mapErase, mapLookup, hp, hq, ih]

theorem mapLookup_eq_none_iff (m : IngesterMap) (k : String) :
    mapLookup m k = none ↔ ∀ p ∈ m, p.1 ≠ k := by
  induction m with
  | nil => simp [mapLookup]
  | cons p m ih =>
    by_cases hp : p.1 = k
    · simp [mapLookup, hp]
    · simp [mapLookup, hp, ih]

theorem mapErase_eq_self (m : IngesterMap) (k : String)
    (h : ∀ p ∈ m, p.1 ≠ k) :
    mapErase m k = m := by
  induction m with
  | nil => simp [mapErase]
  | cons p m ih =>
    have hp : p.1 ≠ k := h p (by simp)
    simp only [mapErase, if_neg hp]
    rw [ih (fun q hq => h q (by simp [hq]))]

theorem mapErase_idem (m : IngesterMap) (k : String) :
    mapErase (mapErase m k) k = mapErase m k := by
  induction m with
  | nil => simp [mapErase]
  | cons p m ih =>
    by_cases hp : p.1 = k
    · simp [mapErase, hp, ih]
    · simp [mapErase, hp, ih]

theorem sortTokens_perm (ts : List TokenDesc) : (sortTokens ts).Perm ts :=
  List.mergeSort_perm ts tokenLE

theorem sortTokens_sorted (ts : List TokenDesc) :
    List.Pairwise (fun a b => a.token ≤ b.token) (sortTokens ts) := by
  have h : List.Pairwise (fun a b => tokenLE a b = true) (ts.mergeSort tokenLE) :=
    List.sorted_mergeSort
      (fun a b c hab hbc => by
        simp only [tokenLE, decide_eq_true_eq] at hab hbc ⊢
        omega)
      (fun a b => by
        simp only [tokenLE, Bool.or_eq_true, decide_eq_true_eq]
        omega)
      ts
  exact h.imp (fun hab => by simpa [tokenLE] using hab)

/-! ### Invariant preservation -/

theorem filter_token_map_self (id : String) (ts : List Nat) :
    (ts.map (fun x => (⟨x, id⟩ : TokenDesc))).filter
      (fun t => t.ingester == id) = ts.map (fun x => ⟨x, id⟩) :=
  List.filter_eq_self.mpr (by
    intro a ha
    obtain ⟨x, _, rfl⟩ := List.mem_map.mp ha
    simp)

theorem filter_token_map_ne (id id' : String) (h : id' ≠ id) (ts : List Nat) :
    (ts.map (fun x => (⟨x, id⟩ : TokenDesc))).filter
      (fun t => t.ingester == id') = [] :=
  List.filter_eq_nil_iff.mpr (by
    intro a ha
    obtain ⟨x, _, rfl⟩ := List.mem_map.mp ha
    simp [Ne.symm h])

theorem map_token_map (id : String) (ts : List Nat) :
    (ts.map (fun x => (⟨x, id⟩ : TokenDesc))).map TokenDesc.token = ts := by
  induction ts with
  | nil => rfl
  | cons x ts ih => simp only [List.map_cons, ih]

theorem tokensOf_addIngester (d : Desc) (id hn g : String) (ts : List Nat)
    (s : IngesterState) (now : Int) (id' : String) :
    (tokensOf (addIngester d id hn g ts s now) id').Perm
      (if id' = id then tokensOf d id' ++ ts else tokensOf d id') := by
  have hperm := ((sortTokens_perm
      (d.tokens ++ ts.map (fun x => (⟨x, id⟩ : TokenDesc)))).filter
      (fun t => t.ingester == id')).map TokenDesc.token
  by_cases hid : id' = id
  · subst hid
    rw [if_pos rfl]
    refine hperm.trans ?_
    rw [List.filter_append, filter_token_map_self, List.map_append, map_token_map]
    exact List.Perm.refl _
  · rw [if_neg hid]
    refine hperm.trans ?_
    rw [List.filter_append, filter_token_map_ne id id' hid, List.map_append]
    simp [tokensOf]

theorem ringInv_addIngester (d : Desc) (f : String → List Nat)
    (id hn g : String) (ts : List Nat) (s : IngesterState) (now : Int)
    (hInv : RingInv d f) :
    RingInv (addIngester d id hn g ts s now)
      (ghostStep f (RingOp.add id hn g ts s now)) := by
  obtain ⟨hS, hM, hP, hE⟩ := hInv
  refine ⟨sortTokens_sorted _, ?_, ?_, ?_⟩
  · intro t ht
    have ht' : t ∈ d.tokens ++ ts.map (fun x => (⟨x, id⟩ : TokenDesc)) :=
      (sortTokens_perm _).mem_iff.mp ht
    rcases List.mem_append.mp ht' with h1 | h2
    · by_cases hid : t.ingester = id
      · show (mapLookup (mapInsert d.ingesters id ⟨hn, now, s, g⟩)
            t.ingester).isSome = true
        rw [hid, mapLookup_insert_self]
        rfl
      · show (mapLookup (mapInsert d.ingesters id ⟨hn, now, s, g⟩)
            t.ingester).isSome = true
        rw [mapLookup_insert_ne _ _ _ _ hid]
        exact hM t h1
    · obtain ⟨x, _, rfl⟩ := List.mem_map.mp h2
      show (mapLookup (mapInsert d.ingesters id ⟨hn, now, s, g⟩)
          id).isSome = true
      rw [mapLookup_insert_self]
      rfl
  · intro id'
    refine (tokensOf_addIngester d id hn g ts s now id').trans ?_
    by_cases hid : id' = id
    · rw [if_pos hid]
      simp only [ghostStep, if_pos hid]
      exact (hP id').append_right ts
    · rw [if_neg hid]
      simp only [ghostStep, if_neg hid]
      exact hP id'
  · intro id' hnone
    by_cases hid : id' = id
    · subst hid
      rw [show (addIngester d id' hn g ts s now).ingesters =
          mapInsert d.ingesters id' ⟨hn, now, s, g⟩ from rfl,
        mapLookup_insert_self] at hnone
      cases hnone
    · rw [show (addIngester d id hn g ts s now).ingesters =
          mapInsert d.ingesters id ⟨hn, now, s, g⟩ from rfl,
        mapLookup_insert_ne _ _ _ _ hid] at hnone
      simp only [ghostStep, if_neg hid]
      exact hE id' hnone

theorem tokensOf_removeIngester (d : Desc) (id id' : String) :
    tokensOf (removeIngester d id) id' =
      if id' = id then [] else tokensOf d id' := by
  show ((d.tokens.filter (fun t => t.ingester != id)).filter
      (fun t => t.ingester == id')).map TokenDesc.token = _
  rw [List.filter_filter]
  by_cases hid : id' = id
  · subst hid
    rw [if_pos rfl]
    have hnil : d.tokens.filter
        (fun a => (a.ingester == id') && (a.ingester != id')) = [] :=
      List.filter_eq_nil_iff.mpr (by
        intro a _
        by_cases h : a.ingester = id' <;> simp [h])
    rw [hnil]
    rfl
  · rw [if_neg hid]
    show _ = (d.tokens.filter (fun t => t.ingester == id')).map TokenDesc.token
    congr 1
    apply List.filter_congr
    intro a _
    by_cases h : a.ingester = id'
    · simp [h, hid]
    · simp [h]

theorem ringInv_removeIngester (d : Desc) (f : String → List Nat)
    (id : String) (hInv : RingInv d f) :
    RingInv (removeIngester d id) (ghostStep f (RingOp.remove id)) := by
  obtain ⟨hS, hM, hP, hE⟩ := hInv
  refine ⟨hS.filter _, ?_, ?_, ?_⟩
  · intro t ht
    obtain ⟨ht1, ht2⟩ := List.mem_filter.mp ht
    have hne : t.ingester ≠ id := by simpa using ht2
    show (mapLookup (mapErase d.ingesters id) t.ingester).isSome = true
    rw [mapLookup_erase_ne _ _ _ hne]
    exact hM t ht1
  · intro id'
    rw [tokensOf_removeIngester]
    by_cases hid : id' = id
    · simp [hid, ghostStep]
    · rw [if_neg hid]
      simp only [ghostStep, if_neg hid]
      exact hP id'
  · intro id' hnone
    by_cases hid : id' = id
    · simp [ghostStep, hid]
    · simp only [ghostStep, if_neg hid]
      rw [show (removeIngester d id).ingesters = mapErase d.ingesters id
          from rfl, mapLookup_erase_ne _ _ _ hid] at hnone
      exact hE id' hnone

theorem ringInv_applyOp (d : Desc) (f : String → List Nat) (op : RingOp)
    (h : RingInv d f) : RingInv (applyOp d op) (ghostStep f op) := by
  cases op with
  | add id hn g ts s now => exact ringInv_addIngester d f id hn g ts s now h
  | remove id => exact ringInv_removeIngester d f id h

theorem ringInv_foldl (ops : List RingOp) :
    ∀ (d : Desc) (f : String → List Nat), RingInv d f →
      RingInv (ops.foldl applyOp d) (ops.foldl ghostStep f) := by
  induction ops with
  | nil => intro d f h; exact h
  | cons op ops ih =>
    intro d f h
    exact ih _ _ (ringInv_applyOp d f op h)

theorem ringInv_newDesc : RingInv newDesc (fun _ => []) := by
  refine ⟨?_, ?_, ?_, ?_⟩ <;> simp [newDesc, tokensOf, mapLookup]

/-! ### Claim theorems -/

/-- C1: starting from the empty descriptor, after any sequence of
`addIngester`/`removeIngester` calls the token list is sorted ascending
by token value, every token entry's `Ingester` field is a key present
in the `Ingesters` map, and the token list is exactly the union of the
live ingesters' assigned tokens: per identity the recorded token
values are a permutation of the ghost-assigned ones, and identities
absent from the map have no assigned tokens. -/
theorem ring_token_invariant (ops : List RingOp) :
    List.Pairwise (fun a b => a.token ≤ b.token) (applyOps ops).tokens ∧
    (∀ t ∈ (applyOps ops).tokens,
      (mapLookup (applyOps ops).ingesters t.ingester).isSome = true) ∧
    (∀ id, (tokensOf (applyOps ops) id).Perm (assignedTokens ops id)) ∧
    (∀ id, mapLookup (applyOps ops).ingesters id = none →
      assignedTokens ops id = []) :=
  ringInv_foldl ops newDesc (fun _ => []) ringInv_newDesc

/-- C2: `addIngester` stores under `id` an entry carrying the given
hostnames and state and the fresh heartbeat timestamp `now`, appends
exactly `ts.length` token entries — the resulting token list is a
permutation of the old one plus one `⟨t, id⟩` entry per `t` in `ts` —
and leaves the token list sorted ascending. -/
theorem addIngester_registers (d : Desc) (id hostname grpcHostname : String)
    (ts : List Nat) (s : IngesterState) (now : Int) :
    mapLookup (addIngester d id hostname grpcHostname ts s now).ingesters id =
      some ⟨hostname, now, s, grpcHostname⟩ ∧
    (addIngester d id hostname grpcHostname ts s now).tokens.Perm
      (d.tokens ++ ts.map (fun t => ⟨t, id⟩)) ∧
    (addIngester d id hostname grpcHostname ts s now).tokens.length =
      d.tokens.length + ts.length ∧
    List.Pairwise (fun a b => a.token ≤ b.token)
      (addIngester d id hostname grpcHostname ts s now).tokens := by
  refine ⟨mapLookup_insert_self _ _ _, sortTokens_perm _, ?_,
    sortTokens_sorted _⟩
  have h := (sortTokens_perm
    (d.tokens ++ ts.map (fun t => (⟨t, id⟩ : TokenDesc)))).length_eq
  simpa using h

/-- C3 counterexample: calling `addIngester` twice with the same id
"A" and the same fixed token list [5] is not idempotent — the first
call leaves one token entry, the second leaves two, because the stale
entry from the first registration is kept. -/
theorem addIngester_readd_counterexample :
    ¬ reAddTwice.tokens.Perm reAddOnce.tokens ∧
    reAddOnce.tokens.length = 1 ∧ reAddTwice.tokens.length = 2 := by
  have h1 : reAddOnce.tokens.Perm [⟨5, "A"⟩] := sortTokens_perm _
  have h2 : reAddTwice.tokens.Perm (reAddOnce.tokens ++ [⟨5, "A"⟩]) :=
    sortTokens_perm _
  have e1 : reAddOnce.tokens.length = 1 := by simpa using h1.length_eq
  have e2 : reAddTwice.tokens.length = 2 := by
    have h3 := h2.length_eq
    rw [List.length_append, e1] at h3
    simpa using h3
  refine ⟨fun h => ?_, e1, e2⟩
  have h4 := h.length_eq
  rw [e1, e2] at h4
  exact absurd h4 (by decide)

/-- C3 amended: `addIngester` on an id that is already registered
overwrites the map entry (fresh timestamp included) but keeps the
previous registration's token entries: a second call with the same id
and token list `ts` appends a second copy of the `ts` entries, so the
token count grows by `ts.length` instead of staying the same. -/
theorem addIngester_readd_appends (d : Desc)
    (id hostname grpcHostname : String) (ts : List Nat)
    (s : IngesterState) (now now' : Int) :
    mapLookup (addIngester (addIngester d id hostname grpcHostname ts s now)
        id hostname grpcHostname ts s now').ingesters id =
      some ⟨hostname, now', s, grpcHostname⟩ ∧
    (addIngester (addIngester d id hostname grpcHostname ts s now)
        id hostname grpcHostname ts s now').tokens.Perm
      ((d.tokens ++ ts.map (fun t => ⟨t, id⟩)) ++ ts.map (fun t => ⟨t, id⟩)) := by
  refine ⟨mapLookup_insert_self _ _ _, ?_⟩
  exact (sortTokens_perm _).trans ((sortTokens_perm _).append_right _)

/-- C4: `removeIngester id` yields the map with exactly the key `id`
deleted, and the token list with exactly the entries owned by `id`
removed — per-entry occurrence counts of all other entries are
unchanged — with the remaining entries kept in their original relative
order (a sublist of the old token list). -/
theorem removeIngester_filters (d : Desc) (id : String) :
    (∀ k, mapLookup (removeIngester d id).ingesters k =
      if k = id then none else mapLookup d.ingesters k) ∧
    (∀ t : TokenDesc, (removeIngester d id).tokens.count t =
      if t.ingester = id then 0 else d.tokens.count t) ∧
    (removeIngester d id).tokens.Sublist d.tokens := by
  refine ⟨?_, ?_, List.filter_sublist _⟩
  · intro k
    by_cases hk : k = id
    · subst hk
      simp [removeIngester, mapLookup_erase_self]
    · simp [removeIngester, hk, mapLookup_erase_ne _ _ _ hk]
  · intro t
    by_cases ht : t.ingester = id
    · rw [if_pos ht]
      refine List.count_eq_zero.mpr ?_
      intro hmem
      have hbad := (List.mem_filter.mp hmem).2
      simp [ht] at hbad
    · rw [if_neg ht]
      exact List.count_filter (by simp [ht])

/-- C5: if `id` is neither a key of the map nor the owner of any token
entry, `removeIngester id` leaves the descriptor unchanged; and for
every descriptor removal is idempotent — removing twice equals
removing once. -/
theorem removeIngester_absent_noop (d : Desc) (id : String)
    (h1 : mapLookup d.ingesters id = none)
    (h2 : ∀ t ∈ d.tokens, t.ingester ≠ id) :
    removeIngester d id = d ∧
    ∀ d' : Desc, removeIngester (removeIngester d' id) id =
      removeIngester d' id := by
  constructor
  · have hm : mapErase d.ingesters id = d.ingesters :=
      mapErase_eq_self _ _ ((mapLookup_eq_none_iff _ _).mp h1)
    have htok : d.tokens.filter (fun t => t.ingester != id) = d.tokens :=
      List.filter_eq_self.mpr (by intro a ha; simpa using h2 a ha)
    show Desc.mk (mapErase d.ingesters id)
        (d.tokens.filter (fun t => t.ingester != id)) = d
    rw [hm, htok]
  · intro d'
    show Desc.mk (mapErase (mapErase d'.ingesters id) id)
        ((d'.tokens.filter (fun t => t.ingester != id)).filter
          (fun t => t.ingester != id)) =
      Desc.mk (mapErase d'.ingesters id)
        (d'.tokens.filter (fun t => t.ingester != id))
    rw [mapErase_idem]
    congr 1
    rw [List.filter_filter]
    apply List.filter_congr
    intro a _
    by_cases h : a.ingester = id <;> simp [h]

/-- C5 witness: a concrete descriptor without ingester "A". -/
theorem removeIngester_absent_noop_witness :
    (mapLookup wdB.ingesters "A" = none ∧
      ∀ t ∈ wdB.tokens, t.ingester ≠ "A") ∧
    (removeIngester wdB "A" = wdB ∧
      ∀ d' : Desc, removeIngester (removeIngester d' "A") "A" =
        removeIngester d' "A") :=
  ⟨⟨by decide, by decide⟩,
    removeIngester_absent_noop wdB "A" (by decide) (by decide)⟩

/-- C7: adding two distinct identities in sequence (the serialisation
the CAS retry produces) leaves entries for both of them in the map and
both identities' token entries in the token list. -/
theorem addIngester_two_distinct (d : Desc) (a b : String) (h : a ≠ b)
    (hna hga hnb hgb : String) (tsa tsb : List Nat)
    (sa sb : IngesterState) (na nb : Int) :
    mapLookup (addIngester (addIngester d a hna hga tsa sa na)
        b hnb hgb tsb sb nb).ingesters a = some ⟨hna, na, sa, hga⟩ ∧
    mapLookup (addIngester (addIngester d a hna hga tsa sa na)
        b hnb hgb tsb sb nb).ingesters b = some ⟨hnb, nb, sb, hgb⟩ ∧
    (∀ t ∈ tsa, (⟨t, a⟩ : TokenDesc) ∈
      (addIngester (addIngester d a hna hga tsa sa na)
        b hnb hgb tsb sb nb).tokens) ∧
    (∀ t ∈ tsb, (⟨t, b⟩ : TokenDesc) ∈
      (addIngester (addIngester d a hna hga tsa sa na)
        b hnb hgb tsb sb nb).tokens) := by
  refine ⟨?_, mapLookup_insert_self _ _ _, ?_, ?_⟩
  · rw [show (addIngester (addIngester d a hna hga tsa sa na)
        b hnb hgb tsb sb nb).ingesters =
      mapInsert (addIngester d a hna hga tsa sa na).ingesters
        b ⟨hnb, nb, sb, hgb⟩ from rfl,
      mapLookup_insert_ne _ _ _ _ h]
    exact mapLookup_insert_self _ _ _
  · intro t htm
    refine (sortTokens_perm _).mem_iff.mpr ?_
    refine List.mem_append.mpr (Or.inl ?_)
    refine (sortTokens_perm _).mem_iff.mpr ?_
    exact List.mem_append.mpr (Or.inr (List.mem_map.mpr ⟨t, htm, rfl⟩))
  · intro t htm
    refine (sortTokens_perm _).mem_iff.mpr ?_
    exact List.mem_append.mpr (Or.inr (List.mem_map.mpr ⟨t, htm, rfl⟩))

/-- C7 witness: "A" then "B" on the empty descriptor. -/
theorem addIngester_two_distinct_witness :
    ("A" : String) ≠ "B" ∧
    (mapLookup (addIngester (addIngester newDesc "A" "ha" "ga" [1] Active 0)
        "B" "hb" "gb" [2] Active 0).ingesters "A" =
      some ⟨"ha", 0, Active, "ga"⟩ ∧
    mapLookup (addIngester (addIngester newDesc "A" "ha" "ga" [1] Active 0)
        "B" "hb" "gb" [2] Active 0).ingesters "B" =
      some ⟨"hb", 0, Active, "gb"⟩ ∧
    (∀ t ∈ ([1] : List Nat), (⟨t, "A"⟩ : TokenDesc) ∈
      (addIngester (addIngester newDesc "A" "ha" "ga" [1] Active 0)
        "B" "hb" "gb" [2] Active 0).tokens) ∧
    (∀ t ∈ ([2] : List Nat), (⟨t, "B"⟩ : TokenDesc) ∈
      (addIngester (addIngester newDesc "A" "ha" "ga" [1] Active 0)
        "B" "hb" "gb" [2] Active 0).tokens)) :=
  ⟨by decide, addIngester_two_distinct newDesc "A" "B" (by decide)
    "ha" "ga" "hb" "gb" [1] [2] Active Active 0 0⟩

/-- C8: `route` is a pure function of the descriptor's token list and
its key-to-entry mapping: two descriptors agreeing on those (however
the map entries are stored internally) give byte-for-byte identical
address sequences for a fixed key and replication factor, so every
process recomputing the route obtains the identical ordered result. -/
theorem route_deterministic (d1 d2 : Desc) (key n : Nat)
    (ht : d1.tokens = d2.tokens)
    (hm : ∀ k, mapLookup d1.ingesters k = mapLookup d2.ingesters k) :
    route d1 key n = route d2 key n := by
  unfold route
  rw [ht, funext hm]

/-- C8 witness: the same mapping stored in two different entry orders
routes identically. -/
theorem route_deterministic_witness :
    (descAB.tokens = descBA.tokens ∧
      ∀ k, mapLookup descAB.ingesters k = mapLookup descBA.ingesters k) ∧
    route descAB 15 2 = route descBA 15 2 := by
  have hm : ∀ k, mapLookup descAB.ingesters k = mapLookup descBA.ingesters k := by
    intro k
    by_cases hka : ("a" : String) = k
    · subst hka
      decide
    · by_cases hkb : ("b" : String) = k
      · subst hkb
        decide
      · simp [descAB, descBA, mapLookup, hka, hkb]
  exact ⟨⟨rfl, hm⟩, route_deterministic descAB descBA 15 2 rfl hm⟩

theorem rulesOfStmts_ok (stmts : List Stmt)
    (h : ∀ st ∈ stmts, isRuleStmt st = true) :
    ∃ rs : List Rule, rulesOfStmts stmts = some rs ∧
      rs.length = stmts.length := by
  induction stmts with
  | nil => exact ⟨[], rfl, rfl⟩
  | cons st sts ih =>
    obtain ⟨rs, hrs, hlen⟩ := ih (fun s hs => h s (List.mem_cons_of_mem _ hs))
    cases st with
    | alertStmt n e dur ls as =>
      refine ⟨Rule.alertingRule n e dur ls as :: rs, ?_, by simp [hlen]⟩
      simp only [rulesOfStmts, ruleOfStmt, hrs]
    | recordStmt n e ls =>
      refine ⟨Rule.recordingRule n e ls :: rs, ?_, by simp [hlen]⟩
      simp only [rulesOfStmts, ruleOfStmt, hrs]
    | evalStmt e =>
      have hbad := h _ (List.mem_cons_self _ _)
      simp [isRuleStmt] at hbad

/-- C9: on every input whose files all parse and whose parsed
statements are all alert or record statements, `loadRules` returns a
rule list without panicking, with one rule per statement; and on an
input containing a successfully parsed statement of any other kind it
panics. -/
theorem loadRules_ok_of_ruleStmts
    (parse : String → Except String (List Stmt))
    (files : List (String × String))
    (h : ∀ f ∈ files, ∃ stmts, parse f.2 = Except.ok stmts ∧
      ∀ st ∈ stmts, isRuleStmt st = true) :
    (∃ rs : List Rule, loadRules parse files = LoadResult.ok rs ∧
      rs.length = (files.map (fun f =>
        match parse f.2 with
        | Except.ok stmts => stmts.length
        | Except.error _ => 0)).sum) ∧
    loadRules badParse [("rules", "x")] = LoadResult.panicked := by
  refine ⟨?_, rfl⟩
  induction files with
  | nil => exact ⟨[], rfl, rfl⟩
  | cons f files ih =>
    obtain ⟨fn, content⟩ := f
    obtain ⟨stmts, hp, hall⟩ := h (fn, content) (List.mem_cons_self _ _)
    obtain ⟨rs, hrs, hlen⟩ := rulesOfStmts_ok stmts hall
    obtain ⟨rest, hrest, hrlen⟩ :=
      ih (fun g hg => h g (List.mem_cons_of_mem _ hg))
    refine ⟨rs ++ rest, ?_, ?_⟩
    · show (match parse content with
        | Except.error e => LoadResult.parseFailure fn e
        | Except.ok stmts =>
          match rulesOfStmts stmts with
          | none => LoadResult.panicked
          | some rs =>
            match loadRules parse files with
            | LoadResult.ok rest => LoadResult.ok (rs ++ rest)
            | other => other) = LoadResult.ok (rs ++ rest)
      have hp' : parse content = Except.ok stmts := hp
      rw [hp']
      simp only [hrs, hrest]
    · have hp' : parse content = Except.ok stmts := hp
      simp [hp', hlen, hrlen]

/-- C9 witness: two files of record statements load into two rules;
the panic case is part of the theorem's conclusion. -/
theorem loadRules_ok_of_ruleStmts_witness :
    (∀ f ∈ goodFiles, ∃ stmts, goodParse f.2 = Except.ok stmts ∧
      ∀ st ∈ stmts, isRuleStmt st = true) ∧
    ((∃ rs : List Rule, loadRules goodParse goodFiles = LoadResult.ok rs ∧
      rs.length = (goodFiles.map (fun f =>
        match goodParse f.2 with
        | Except.ok stmts => stmts.length
        | Except.error _ => 0)).sum) ∧
    loadRules badParse [("rules", "x")] = LoadResult.panicked) := by
  have hgood : ∀ f ∈ goodFiles, ∃ stmts, goodParse f.2 = Except.ok stmts ∧
      ∀ st ∈ stmts, isRuleStmt st = true := by
    intro f _
    exact ⟨[Stmt.recordStmt "r" f.2 []], rfl, by simp [isRuleStmt]⟩
  exact ⟨hgood, loadRules_ok_of_ruleStmts goodParse goodFiles hgood⟩

/-- C10: `IngesterState.String` is total over the integer carrier: it
returns "Active" at `Active` (0), "Leaving" at `Leaving` (1), and the
empty string at every other value, failing nowhere. -/
theorem ingesterState_string_total (s : IngesterState)
    (h1 : s ≠ Active) (h2 : s ≠ Leaving) :
    IngesterState.String Active = "Active" ∧
    IngesterState.String Leaving = "Leaving" ∧
    IngesterState.String s = "" :=
  ⟨by decide, by decide, by simp [IngesterState.String, h1, h2]⟩

/-- C10 witness at the out-of-range state value 3. -/
theorem ingesterState_string_total_witness :
    ((3 : IngesterState) ≠ Active ∧ (3 : IngesterState) ≠ Leaving) ∧
    (IngesterState.String Active = "Active" ∧
     IngesterState.String Leaving = "Leaving" ∧
     IngesterState.String 3 = "") :=
  ⟨⟨by decide, by decide⟩,
    ingesterState_string_total 3 (by decide) (by decide)⟩

end Cortex
